import Mathlib

/-!
Verification of the web-deadend route-matching, response-resolution and
request-accounting core against its specification.

Python strings are modelled as `List Char` (the model operates on the
character sequence directly, so that every definition is executable and
kernel-reducible); Python `None`-returning functions are modelled with
`Option`; exceptions that escape an operation are modelled by `Option`
results of the operation (`none` = the operation raised).  External
collaborators (the `regex` engine, YAML parsing, Jinja rendering) are
parameters of the definitions that call them.
-/

namespace WebDeadend

/-- Character sequence of a Python `str`. -/
abbrev Str := List Char

/-! ## String helpers (src/response/utils.py) -/

/-- Accumulator-based worker for `splitSlash`. -/
def splitSlashAux (cur : Str) : Str → List Str
  | [] => [cur.reverse]
  | c :: rest =>
      if c = '/' then cur.reverse :: splitSlashAux [] rest
      else splitSlashAux (c :: cur) rest

/-- Python `s.split("/")`: split on every `'/'`, keeping empty segments
(`"".split("/") == [""]`). -/
def splitSlash (s : Str) : List Str := splitSlashAux [] s

/-- `p.startswith("%") and p.endswith("%") and len(p) > 2`
(utils.py line 114): the test for a `%WILDCARD%` segment. -/
def isPercentSeg (p : Str) : Bool :=
  p.head? = some '%' && p.getLast? = some '%' && decide (2 < p.length)

/-- `p.startswith("{") and p.endswith("}")` (utils.py line 132): the test
for a `{varname}` placeholder segment. -/
def isBraceSeg (p : Str) : Bool :=
  p.head? = some '{' && p.getLast? = some '}'

/-- `p[1:-1]`: the wildcard/placeholder name inside the delimiters. -/
def wildcard_name (p : Str) : Str := (p.drop 1).dropLast

/-- `route.startswith("r/")` (utils.py line 140). -/
def startsWithRegexPrefix : Str → Bool
  | 'r' :: '/' :: _ => true
  | _ => false

/-- Python `dict` item assignment `d[k] = v`: an existing key keeps its
insertion position and gets the new value; a new key is appended. -/
def pyDictSet (d : List (Str × Str)) (k v : Str) : List (Str × Str) :=
  if d.any (fun e => e.1 == k) then
    d.map (fun e => if e.1 == k then (k, v) else e)
  else d ++ [(k, v)]

/-! ## Regex safety validator (utils.py `validate_regex_pattern`) -/

/-- `[*+]`. -/
def isQuantChar (c : Char) : Bool := c = '*' || c = '+'

/-- After an opening `'('`: scan the characters before the first `')'`
(the regex content class `[^)]*` cannot cross a `')'`).  Succeeds when the
content is non-empty, its last character is `*`/`+`, and the character
right after the `')'` satisfies `follow`.  Second argument: whether the
previously scanned content character was a quantifier. -/
def groupScanAux (follow : Char → Bool) : Str → Bool → Bool
  | [], _ => false
  | ')' :: rest, prevQ =>
      prevQ && (match rest with | c :: _ => follow c | [] => false)
  | c :: rest, _ => groupScanAux follow rest (isQuantChar c)

/-- Search (as in `regex.search`) for the danger shape
`\([^)]*[*+]\)F` where `F` is the `follow` character class: a
parenthesized group whose body ends in `*`/`+`, immediately followed by a
`follow` character.  With `follow = isQuantChar` this is the source's
first danger pattern `\([^)]*[*+]\)[*+]`; with `follow = (· = '{')` it is
the second, `\([^)]*[*+]\)\{`. -/
def hasGroupDanger (follow : Char → Bool) : Str → Bool
  | [] => false
  | '(' :: rest => groupScanAux follow rest false || hasGroupDanger follow rest
  | _ :: rest => hasGroupDanger follow rest

/-- After an opening `'{'`: scan to the first `'}'` (the class `[^}]+`
cannot cross a `'}'`); succeed when the content is non-empty and the
character after the `'}'` is `*`/`+`.  Second argument: whether at least
one content character has been seen. -/
def braceScanAux : Str → Bool → Bool
  | [], _ => false
  | '}' :: rest, nonempty =>
      nonempty && (match rest with | c :: _ => isQuantChar c | [] => false)
  | _ :: rest, _ => braceScanAux rest true

/-- Search for the source's third danger pattern `\{[^}]+\}[*+]`:
a `{...}` quantifier immediately followed by `*`/`+`. -/
def hasBraceDanger : Str → Bool
  | [] => false
  | '{' :: rest => braceScanAux rest false || hasBraceDanger rest
  | _ :: rest => hasBraceDanger rest

/-- `validate_regex_pattern` (utils.py lines 26-55).  `compiles` models
the external check `regex.compile(pattern)` succeeding. -/
def validate_regex_pattern (compiles : Str → Bool) (pattern : Str) : Bool :=
  if 500 < pattern.length then false
  else if hasGroupDanger isQuantChar pattern
       || hasGroupDanger (fun c => c = '{') pattern
       || hasBraceDanger pattern then false
  else compiles pattern

/-! ## Route matcher (utils.py `route_matches_url`) -/

/-- The segment loop `for p, u in zip(parts, url_parts)` shared (up to
the wildcard test) by the percent branch (utils.py lines 112-121) and
the placeholder branch (lines 131-136): a `test`-segment captures the
path segment into the `path_variables` dict, any other segment must
agree literally. -/
def matchSegsWith (test : Str → Bool) :
    List (Str × Str) → List (Str × Str) → Option (List (Str × Str))
  | [], acc => some acc
  | (p, u) :: rest, acc =>
      if test p then matchSegsWith test rest (pyDictSet acc (wildcard_name p) u)
      else if p = u then matchSegsWith test rest acc
      else none

/-- The percent-wildcard loop (utils.py lines 112-121). -/
def matchSegsPercent : List (Str × Str) → List (Str × Str) → Option (List (Str × Str)) :=
  matchSegsWith isPercentSeg

/-- The placeholder loop (utils.py lines 131-136). -/
def matchSegsBrace : List (Str × Str) → List (Str × Str) → Option (List (Str × Str)) :=
  matchSegsWith isBraceSeg

/-- `route_matches_url` (utils.py lines 88-174).

`rmatch pattern url` models `regex.compile(pattern).match(url)` followed
by `.groupdict()`: `none` covers no-match, timeout and any regex error
(all of which make the Python function return `None`); `compiles` models
`regex.compile` succeeding inside `validate_regex_pattern`. -/
def route_matches_url (rmatch : Str → Str → Option (List (Str × Str)))
    (compiles : Str → Bool) (route url : Str) : Option (List (Str × Str)) :=
  if route = url then some []
  else if route.contains '%' then
    if (splitSlash route).length ≠ (splitSlash url).length then none
    else matchSegsPercent ((splitSlash route).zip (splitSlash url)) []
  else if route.contains '{' && route.contains '}' then
    if (splitSlash route).length ≠ (splitSlash url).length then none
    else matchSegsBrace ((splitSlash route).zip (splitSlash url)) []
  else if startsWithRegexPrefix route then
    if validate_regex_pattern compiles (route.drop 2) = false then none
    else rmatch (route.drop 2) url
  else none

/-- Specification-side description of the captured variables of a
segment loop: the `(name, segment)` pairs of the `test`-wildcard
segments, in segment order. -/
def capturesSpecWith (test : Str → Bool) (segPairs : List (Str × Str)) :
    List (Str × Str) :=
  segPairs.filterMap
    (fun pu => if test pu.1 then some (wildcard_name pu.1, pu.2) else none)

/-- The `test`-wildcard names of a pattern's segments, in order. -/
def namesWith (test : Str → Bool) (parts : List Str) : List Str :=
  parts.filterMap (fun p => if test p then some (wildcard_name p) else none)

/-- The percent-wildcard captures, in segment order. -/
def percentCapturesSpec (parts url_parts : List Str) : List (Str × Str) :=
  capturesSpecWith isPercentSeg (parts.zip url_parts)

/-- The percent-wildcard names of a pattern's segments, in order. -/
def percentNames (parts : List Str) : List Str := namesWith isPercentSeg parts

/-- The placeholder captures, in segment order. -/
def braceCapturesSpec (parts url_parts : List Str) : List (Str × Str) :=
  capturesSpecWith isBraceSeg (parts.zip url_parts)

/-- The placeholder names of a pattern's segments, in order. -/
def braceNames (parts : List Str) : List Str := namesWith isBraceSeg parts

/-! ## Response resolver (src/response/handlers.py) -/

/-- A value produced by `yaml.safe_load`. -/
inductive Yaml where
  | nullv
  | boolv (b : Bool)
  | intv (n : Int)
  | strv (s : Str)
  | listv (items : List Yaml)
  | mapv (entries : List (Str × Yaml))

/-- Python truthiness (`if method_config:`) of a YAML-loaded value. -/
def pyTruthy : Yaml → Bool
  | .nullv => false
  | .boolv b => b
  | .intv n => decide (n ≠ 0)
  | .strv s => !s.isEmpty
  | .listv l => !l.isEmpty
  | .mapv m => !m.isEmpty

/-- Python `dict.get(k)` on an insertion-ordered mapping with unique
keys: the value of the first (only) entry with key `k`, else `None`. -/
def dictGet (d : List (Str × Yaml)) (k : Str) : Option Yaml :=
  (d.find? (fun e => e.1 == k)).map (fun e => e.2)

/-- `get_response_data` (handlers.py lines 67-78): scan the route
configuration in insertion order; on the first structurally matching
route, look up the request method; if the entry is present and truthy,
return it with the captured variables, otherwise keep scanning. -/
def get_response_data (rmatch : Str → Str → Option (List (Str × Str)))
    (compiles : Str → Bool) (config : List (Str × List (Str × Yaml)))
    (method url : Str) : Option (Yaml × List (Str × Str)) :=
  match config with
  | [] => none
  | (route, methods) :: rest =>
      match route_matches_url rmatch compiles route url with
      | some path_vars =>
          match dictGet methods method with
          | some method_config =>
              if pyTruthy method_config then some (method_config, path_vars)
              else get_response_data rmatch compiles rest method url
          | none => get_response_data rmatch compiles rest method url
      | none => get_response_data rmatch compiles rest method url

/-- The state of the route-configuration file as seen by
`load_responses`: absent, present but rejected by the YAML parser, or
parsed to a document. -/
inductive FileState where
  | missing
  | unparseableYaml
  | parsed (doc : Yaml)

/-- `isinstance(result, dict)`. -/
def isMapDoc : Yaml → Bool
  | .mapv _ => true
  | _ => false

/-- `load_responses` (handlers.py lines 53-64): missing file, YAML error
and non-mapping documents all yield no configuration. -/
def load_responses : FileState → Option Yaml
  | .missing => none
  | .unparseableYaml => none
  | .parsed doc => if isMapDoc doc then some doc else none

/-- An HTTP response as produced by `handle_request`: a status code and
a body. -/
structure HttpResponse where
  status : Nat
  body : Str
deriving DecidableEq

/-- `handle_request` (handlers.py lines 162-231), at the resolution
skeleton level: `resolve` models `get_response_data` applied to the
loaded configuration and `render` models template rendering plus the
optional base64 decoding of the matched spec.  No configuration, or no
matching route/method, yields `Response("", status=204)`. -/
def handle_request (resolve : Yaml → Str → Str → Option (Yaml × List (Str × Str)))
    (render : Yaml → List (Str × Str) → Str) (statusOf : Yaml → Nat)
    (file : FileState) (method url : Str) : HttpResponse :=
  match load_responses file with
  | none => ⟨204, []⟩
  | some config =>
      match resolve config method url with
      | none => ⟨204, []⟩
      | some (method_config, path_vars) =>
          ⟨statusOf method_config, render method_config path_vars⟩

/-! ## Request-ID header (src/server.py `after_request`) -/

/-- The per-request data relevant to the request-ID header: the request
path, the client address, and the identifier generated in
`before_request` (`g.request_id`). -/
structure RequestInfo where
  path : Str
  remoteAddr : Str
  requestId : Str

/-- `Server._should_skip_logging` (server.py lines 724-727). -/
def should_skip_logging (path remoteAddr : Str) : Bool :=
  path == "/deadend-status".data && remoteAddr == "127.0.0.1".data

/-- `response.headers[k] = v`: replace the value of an existing header,
else append it. -/
def setHeader (hs : List (Str × Str)) (k v : Str) : List (Str × Str) :=
  if hs.any (fun e => e.1 == k) then
    hs.map (fun e => if e.1 == k then (k, v) else e)
  else hs ++ [(k, v)]

/-- Header lookup: the value of the first header named `k`. -/
def getHeader (hs : List (Str × Str)) (k : Str) : Option Str :=
  (hs.find? (fun e => e.1 == k)).map (fun e => e.2)

/-- The header-mutating slice of `Server.after_request` (server.py lines
671-677): return the response headers unchanged when logging is skipped,
otherwise set `X-Request-ID` to `g.request_id`. -/
def after_request_set_header (req : RequestInfo) (hs : List (Str × Str)) :
    List (Str × Str) :=
  if should_skip_logging req.path req.remoteAddr then hs
  else setHeader hs "X-Request-ID".data req.requestId

/-- The identifier exposed to templates as `request.id`: handlers.py
line 185 reads `g.request_id` (default `""`) and line 199 stores it in
the render context under `id`. -/
def template_request_id (gRequestId : Str) : Str := gRequestId

/-! ## BoundedCounter (src/server.py lines 34-77)

The `OrderedDict` is modelled as an association list, oldest entry
first, newest (most-recently-used) last.  `popitem(last=False)` on an
empty dict raises `KeyError`, so the two mutating operations return
`Option`: `none` models the raise (only reachable when `maxsize = 0`).
-/

/-- The `OrderedDict` contents of a `BoundedCounter`. -/
abbrev BCData := List (Str × Int)

/-- The keys, in insertion/recency order (oldest first). -/
def odKeys (d : BCData) : List Str := d.map (fun e => e.1)

/-- `self.data.get(key)`. -/
def odGet (d : BCData) (k : Str) : Option Int :=
  (d.find? (fun e => e.1 == k)).map (fun e => e.2)

/-- `key in self.data`. -/
def odHasKey (d : BCData) (k : Str) : Bool := d.any (fun e => e.1 == k)

/-- `self.data.move_to_end(key)`: move the entry for `key` to the
most-recently-used (last) position. -/
def odMoveToEnd (d : BCData) (k : Str) : BCData :=
  match odGet d k with
  | some v => d.filter (fun e => !(e.1 == k)) ++ [(k, v)]
  | none => d

/-- `self.data[key] = value` on an `OrderedDict`: update in place if the
key exists, else append. -/
def odAssign (d : BCData) (k : Str) (v : Int) : BCData :=
  if odHasKey d k then d.map (fun e => if e.1 == k then (k, v) else e)
  else d ++ [(k, v)]

/-- `self.data.popitem(last=False)`: drop the oldest entry; raises
(`none`) on an empty dict. -/
def odPopFirst : BCData → Option BCData
  | [] => none
  | _ :: t => some t

/-- `BoundedCounter.__setitem__` (server.py lines 46-54). -/
def bcSetItem (maxsize : Nat) (d : BCData) (k : Str) (v : Int) : Option BCData :=
  if odHasKey d k then some (odAssign (odMoveToEnd d k) k v)
  else if maxsize ≤ d.length then (odPopFirst d).map (fun t => odAssign t k v)
  else some (odAssign d k v)

/-- `BoundedCounter.increment` (server.py lines 60-68). -/
def bcIncrement (maxsize : Nat) (d : BCData) (k : Str) (amount : Int) : Option BCData :=
  let current := (odGet d k).getD 0
  if odHasKey d k then some (odAssign (odMoveToEnd d k) k (current + amount))
  else if maxsize ≤ d.length then (odPopFirst d).map (fun t => odAssign t k (current + amount))
  else some (odAssign d k (current + amount))

/-- One `BoundedCounter` mutation. -/
inductive BCOp where
  | setItem (k : Str) (v : Int)
  | increment (k : Str) (amount : Int)

/-- Apply one mutation. -/
def bcStep (maxsize : Nat) (d : BCData) : BCOp → Option BCData
  | .setItem k v => bcSetItem maxsize d k v
  | .increment k a => bcIncrement maxsize d k a

/-- Run a sequence of mutations; `none` when any of them raises. -/
def bcRun (maxsize : Nat) (ops : List BCOp) (d : BCData) : Option BCData :=
  match ops with
  | [] => some d
  | op :: rest => (bcStep maxsize d op).bind (fun d2 => bcRun maxsize rest d2)

/-- Well-formedness of the counter contents: unique keys and at most
`maxsize` entries. -/
def bcWF (maxsize : Nat) (d : BCData) : Prop :=
  (odKeys d).Nodup ∧ d.length ≤ maxsize

/-! ## FIFO-bounded unique-IP structure (src/server.py)

`self.unique_ips = deque(maxlen=50000)` with companion
`self.unique_ips_set`, updated by the lines 687-694 of
`Server.after_request`.
-/

/-- The paired deque (oldest first) and membership set. -/
structure IPTrack where
  uniqueIps : List Str
  uniqueIpsSet : Finset Str

/-- `deque(maxlen=cap).append(x)`: appending to a full deque silently
drops the oldest element; a `maxlen=0` deque discards every append. -/
def dequeAppend (cap : Nat) (xs : List Str) (x : Str) : List Str :=
  if cap = 0 then xs
  else if cap ≤ xs.length then xs.tail ++ [x]
  else xs ++ [x]

/-- The unique-IP tracking slice of `Server.after_request` (server.py
lines 687-694): skip IPs already in the membership set; otherwise append
to the deque, add to the set, and rebuild the set from the deque when its
size exceeds the deque's. -/
def track_unique_ip (cap : Nat) (s : IPTrack) (ip : Str) : IPTrack :=
  if ip ∈ s.uniqueIpsSet then s
  else if (dequeAppend cap s.uniqueIps ip).length < (insert ip s.uniqueIpsSet).card then
    ⟨dequeAppend cap s.uniqueIps ip, (dequeAppend cap s.uniqueIps ip).toFinset⟩
  else ⟨dequeAppend cap s.uniqueIps ip, insert ip s.uniqueIpsSet⟩

/-- Run a sequence of IP arrivals through the tracker. -/
def track_run (cap : Nat) (ips : List Str) (s : IPTrack) : IPTrack :=
  match ips with
  | [] => s
  | ip :: rest => track_run cap rest (track_unique_ip cap s ip)

/-- Invariant of the paired structures: the set is exactly the deque's
membership, the deque has no duplicates, and it is within capacity. -/
def ipWF (cap : Nat) (s : IPTrack) : Prop :=
  s.uniqueIpsSet = s.uniqueIps.toFinset ∧ s.uniqueIps.Nodup ∧ s.uniqueIps.length ≤ cap

/-- The last `n` elements of a list. -/
def lastN (n : Nat) (l : List Str) : List Str := l.drop (l.length - n)

/-! ## Async GELF shipper, enqueue side (src/server.py `_send_to_gelf`) -/

/-- What the enqueue path logs. -/
inductive GelfLog where
  | noLog
  | firstDropWarning
  | saturationError (totalDrops : Nat) (queueOccupancy : Nat) (queueMax : Nat)
deriving DecidableEq

/-- The shipper state seen by `_send_to_gelf`: current queue occupancy,
queue capacity, and the cumulative drop counter `self.gelf_drops`. -/
structure GelfState where
  queueLen : Nat
  queueMax : Nat
  drops : Nat
deriving DecidableEq

/-- `queue.Queue.put_nowait` raises `queue.Full` exactly when the queue
has a positive capacity and is at (or beyond) it. -/
def queueFull (maxsize qlen : Nat) : Bool :=
  decide (0 < maxsize) && decide (maxsize ≤ qlen)

/-- The enqueue portion of `Server._send_to_gelf` (server.py lines
915-940): `put_nowait` the entry; on `queue.Full`, increment
`self.gelf_drops`, log a saturation error on every 100th cumulative drop
(reporting total drops and queue occupancy), and log a warning on the
very first drop.  Total: the surrounding `try/except` never lets an
exception reach the caller, and nothing blocks. -/
def send_to_gelf (s : GelfState) : GelfState × GelfLog :=
  if queueFull s.queueMax s.queueLen then
    let drops := s.drops + 1
    if drops % 100 = 0 then
      ({ s with drops := drops }, .saturationError drops s.queueLen s.queueMax)
    else if drops = 1 then
      ({ s with drops := drops }, .firstDropWarning)
    else ({ s with drops := drops }, .noLog)
  else ({ s with queueLen := s.queueLen + 1 }, .noLog)

/-! ## Helper lemmas -/

theorem find_map_replace (hs : List (Str × Str)) (k v : Str) :
    (hs.map (fun e => if e.1 == k then (k, v) else e)).find? (fun e => e.1 == k)
      = if hs.any (fun e => e.1 == k) then some (k, v) else none := by
  induction hs with
  | nil => simp
  | cons e t ih =>
      by_cases he : e.1 = k
      · simp [he, List.find?_cons]
      · have he' : (e.1 == k) = false := by simp [he]
        simp only [List.map_cons, List.find?_cons, List.any_cons, he']
        simpa [he'] using ih

theorem getHeader_setHeader (hs : List (Str × Str)) (k v : Str) :
    getHeader (setHeader hs k v) k = some v := by
  unfold getHeader setHeader
  by_cases hany : hs.any (fun e => e.1 == k)
  · rw [if_pos hany, find_map_replace, if_pos hany]
    rfl
  · have hnone : hs.find? (fun e => e.1 == k) = none := by
      rw [List.find?_eq_none]
      intro x hx hpx
      exact hany (List.any_eq_true.mpr ⟨x, hx, hpx⟩)
    rw [if_neg hany, List.find?_append, hnone]
    simp

theorem pyDictSet_of_not_mem (acc : List (Str × Str)) (k v : Str)
    (h : ∀ e ∈ acc, e.1 ≠ k) : pyDictSet acc k v = acc ++ [(k, v)] := by
  have hany : acc.any (fun e => e.1 == k) = false := by
    rw [List.any_eq_false]
    intro e he
    simpa using h e he
  simp [pyDictSet, hany]

theorem matchSegsWith_spec (test : Str → Bool) (l : List (Str × Str)) :
    ∀ acc : List (Str × Str),
    (∀ pu ∈ l, test pu.1 = true ∨ pu.1 = pu.2) →
    (namesWith test (l.map Prod.fst)).Nodup →
    (∀ n ∈ namesWith test (l.map Prod.fst), ∀ e ∈ acc, e.1 ≠ n) →
    matchSegsWith test l acc = some (acc ++ capturesSpecWith test l) := by
  induction l with
  | nil =>
      intro acc _ _ _
      simp [matchSegsWith, capturesSpecWith]
  | cons pu t ih =>
      intro acc hseg hnd hdisj
      obtain ⟨p, u⟩ := pu
      simp only [List.map_cons] at hnd hdisj
      by_cases hp : test p = true
      · have hnames : namesWith test (p :: t.map Prod.fst)
            = wildcard_name p :: namesWith test (t.map Prod.fst) := by
          simp [namesWith, hp]
        rw [hnames] at hnd hdisj
        obtain ⟨hnotin, hndt⟩ := List.nodup_cons.mp hnd
        have hacc : pyDictSet acc (wildcard_name p) u = acc ++ [(wildcard_name p, u)] :=
          pyDictSet_of_not_mem acc (wildcard_name p) u
            (fun e he => hdisj (wildcard_name p) (List.mem_cons_self _ _) e he)
        have hstep : matchSegsWith test ((p, u) :: t) acc
            = matchSegsWith test t (acc ++ [(wildcard_name p, u)]) := by
          simp [matchSegsWith, hp, hacc]
        rw [hstep, ih (acc ++ [(wildcard_name p, u)]) (fun x hx => hseg x (List.mem_cons_of_mem _ hx)) hndt ?_]
        · simp [capturesSpecWith, hp, List.append_assoc]
        · intro n hn e he
          rcases List.mem_append.mp he with he' | he'
          · exact hdisj n (List.mem_cons_of_mem _ hn) e he'
          · have he2 : e = (wildcard_name p, u) := by simpa using he'
            subst he2
            intro hcontra
            apply hnotin
            have hwn : wildcard_name p = n := hcontra
            rw [hwn]
            exact hn
      · rcases hseg (p, u) (List.mem_cons_self _ _) with hcontra | hpu
        · exact absurd hcontra hp
        · have hpu' : p = u := hpu
          subst hpu'
          have hnames : namesWith test (p :: t.map Prod.fst)
              = namesWith test (t.map Prod.fst) := by
            simp [namesWith, hp]
          rw [hnames] at hnd hdisj
          have hstep : matchSegsWith test ((p, p) :: t) acc
              = matchSegsWith test t acc := by
            simp [matchSegsWith, hp]
          rw [hstep, ih acc (fun x hx => hseg x (List.mem_cons_of_mem _ hx)) hnd hdisj]
          simp [capturesSpecWith, hp]

/-! ## Claim theorems -/

/-- **C1 counterexample.** The claim that a `%EPOCH%` (resp. `%IP%`)
segment matches only digit sequences (resp. `[a-fA-F0-9_]+`) and that a
non-conforming aligned segment yields no-match is false: the code
captures any segment value verbatim. -/
theorem percent_epoch_nonconforming_matches :
    route_matches_url (fun _ _ => none) (fun _ => true) "/%EPOCH%".data "/abc".data
      = some [("EPOCH".data, "abc".data)]
    ∧ route_matches_url (fun _ _ => none) (fun _ => true) "/%IP%".data "/z!z".data
      ≠ none := by
  exact ⟨by decide, by decide⟩

/-- **C1 amended.** Percent-wildcard matching is purely structural and
performs no per-wildcard value validation: for any pattern containing
`%` that is not literally equal to the path, if segment counts agree and
every non-wildcard segment matches literally, `route_matches_url`
returns exactly the wildcard captures — whatever characters the `%IP%`
or `%EPOCH%` segment values contain.  (Wildcard names are assumed
pairwise distinct; duplicates are collapsed by the `dict`.) -/
theorem percent_wildcard_generic_capture
    (rmatch : Str → Str → Option (List (Str × Str))) (compiles : Str → Bool)
    (route url : Str)
    (hpct : route.contains '%' = true)
    (hne : route ≠ url)
    (hlen : (splitSlash route).length = (splitSlash url).length)
    (hsegs : ∀ pu ∈ (splitSlash route).zip (splitSlash url),
      isPercentSeg pu.1 = true ∨ pu.1 = pu.2)
    (hnames : (percentNames (splitSlash route)).Nodup) :
    route_matches_url rmatch compiles route url
      = some (percentCapturesSpec (splitSlash route) (splitSlash url)) := by
  have hmapfst : ((splitSlash route).zip (splitSlash url)).map Prod.fst
      = splitSlash route :=
    List.map_fst_zip _ _ (le_of_eq hlen)
  unfold route_matches_url
  rw [if_neg hne, if_pos hpct, if_neg (fun h => h hlen)]
  have := matchSegsWith_spec isPercentSeg ((splitSlash route).zip (splitSlash url)) []
    hsegs (by rw [hmapfst]; exact hnames) (by intro n _ e he; simp at he)
  rw [matchSegsPercent, this]
  rfl

theorem percent_wildcard_generic_capture_witness :
    route_matches_url (fun _ _ => none) (fun _ => true)
        "/report/%IP%/%EPOCH%".data "/report/not-hex!/not-digits".data
      = some (percentCapturesSpec (splitSlash "/report/%IP%/%EPOCH%".data)
          (splitSlash "/report/not-hex!/not-digits".data)) :=
  percent_wildcard_generic_capture (fun _ _ => none) (fun _ => true)
    "/report/%IP%/%EPOCH%".data "/report/not-hex!/not-digits".data
    (by decide) (by decide) (by decide) (by decide) (by decide)

/-- **C9 counterexample.** The claim that a placeholder pattern whose
literal segments agree with an equal-length path always returns the
placeholder-to-segment mapping is false when the pattern string is
literally equal to the path: the exact-match branch fires first and
returns the empty variable set instead of the capture. -/
theorem placeholder_exact_equal_captures_nothing :
    route_matches_url (fun _ _ => none) (fun _ => true) "/{x}".data "/{x}".data
      = some []
    ∧ route_matches_url (fun _ _ => none) (fun _ => true) "/{x}".data "/{x}".data
      ≠ some [("x".data, "{x}".data)] := by
  exact ⟨by decide, by decide⟩

/-- **C9 amended.** For every placeholder pattern (contains `{` and `}`,
no `%`, placeholder names pairwise distinct) and every path: a
segment-count mismatch returns no-match, and if the pattern is not
literally equal to the path, segment counts agree and every
non-placeholder segment matches literally, `route_matches_url` returns
exactly the placeholder-to-segment mapping, captured verbatim in
segment order. -/
theorem placeholder_capture_spec
    (rmatch : Str → Str → Option (List (Str × Str))) (compiles : Str → Bool)
    (route url : Str)
    (hnopct : route.contains '%' = false)
    (hbl : route.contains '{' = true) (hbr : route.contains '}' = true) :
    ((splitSlash route).length ≠ (splitSlash url).length →
      route_matches_url rmatch compiles route url = none)
    ∧ (route ≠ url →
      (splitSlash route).length = (splitSlash url).length →
      (∀ pu ∈ (splitSlash route).zip (splitSlash url),
        isBraceSeg pu.1 = true ∨ pu.1 = pu.2) →
      (braceNames (splitSlash route)).Nodup →
      route_matches_url rmatch compiles route url
        = some (braceCapturesSpec (splitSlash route) (splitSlash url))) := by
  have hnopct' : ¬ (route.contains '%' = true) := by
    rw [hnopct]
    exact Bool.false_ne_true
  have hbb : (route.contains '{' && route.contains '}') = true := by
    rw [hbl, hbr]
    rfl
  constructor
  · intro hlen
    have hne : route ≠ url := by
      intro h
      exact hlen (by rw [h])
    unfold route_matches_url
    rw [if_neg hne, if_neg hnopct', if_pos hbb, if_pos hlen]
  · intro hne hlen hsegs hnames
    have hmapfst : ((splitSlash route).zip (splitSlash url)).map Prod.fst
        = splitSlash route :=
      List.map_fst_zip _ _ (le_of_eq hlen)
    unfold route_matches_url
    rw [if_neg hne, if_neg hnopct', if_pos hbb, if_neg (fun h => h hlen)]
    have := matchSegsWith_spec isBraceSeg ((splitSlash route).zip (splitSlash url)) []
      hsegs (by rw [hmapfst]; exact hnames) (by intro n _ e he; simp at he)
    rw [matchSegsBrace, this]
    rfl

theorem placeholder_capture_spec_witness :
    route_matches_url (fun _ _ => none) (fun _ => true)
        "/test/{param}".data "/a".data = none
    ∧ route_matches_url (fun _ _ => none) (fun _ => true)
        "/test/{param}".data "/test/abc".data
      = some (braceCapturesSpec (splitSlash "/test/{param}".data)
          (splitSlash "/test/abc".data)) :=
  ⟨(placeholder_capture_spec (fun _ _ => none) (fun _ => true)
      "/test/{param}".data "/a".data (by decide) (by decide) (by decide)).1
      (by decide),
   (placeholder_capture_spec (fun _ _ => none) (fun _ => true)
      "/test/{param}".data "/test/abc".data (by decide) (by decide) (by decide)).2
      (by decide) (by decide) (by decide) (by decide)⟩

/-- **C2.** In `get_response_data`, a route whose pattern structurally
matches the path but whose method mapping has no entry for the request
method never terminates the scan: resolution over that configuration
equals resolution over the remaining routes (which may produce a later
route's response spec, and otherwise `none` = NOT_FOUND; no 405 exists
in the model's codomain). -/
theorem method_miss_continues_scan
    (rmatch : Str → Str → Option (List (Str × Str))) (compiles : Str → Bool)
    (route : Str) (methods : List (Str × Yaml))
    (rest : List (Str × List (Str × Yaml)))
    (method url : Str) (pv : List (Str × Str))
    (hmatch : route_matches_url rmatch compiles route url = some pv)
    (hmiss : dictGet methods method = none) :
    get_response_data rmatch compiles ((route, methods) :: rest) method url
      = get_response_data rmatch compiles rest method url := by
  simp [get_response_data, hmatch, hmiss]

theorem method_miss_continues_scan_witness :
    route_matches_url (fun _ _ => none) (fun _ => true) "/a".data "/a".data = some []
    ∧ dictGet [("POST".data, Yaml.intv 1)] "GET".data = none
    ∧ get_response_data (fun _ _ => none) (fun _ => true)
        [("/a".data, [("POST".data, Yaml.intv 1)]),
         ("/a".data, [("GET".data, Yaml.intv 7)])] "GET".data "/a".data
      = get_response_data (fun _ _ => none) (fun _ => true)
        [("/a".data, [("GET".data, Yaml.intv 7)])] "GET".data "/a".data :=
  ⟨by rfl, by rfl,
    method_miss_continues_scan (fun _ _ => none) (fun _ => true) "/a".data
      [("POST".data, Yaml.intv 1)] [("/a".data, [("GET".data, Yaml.intv 7)])]
      "GET".data "/a".data [] (by rfl) (by rfl)⟩

/-- **C4 counterexample.** An `r/`-prefixed route whose remainder
contains a danger shape can still match: a `%` (or a brace pair) in the
pattern makes an earlier branch of `route_matches_url` intercept the
route before the regex strategy, so the dangerous pattern is neither
validated nor rejected.  Here the remainder `%N%/(a+)+` contains the
nested-quantifier shape `(a+)+`, yet the route matches `r/x/(a+)+` via
the percent-wildcard branch. -/
theorem dangerous_pattern_prefixed_route_matches :
    hasGroupDanger isQuantChar ("r/%N%/(a+)+".data.drop 2) = true
    ∧ route_matches_url (fun _ _ => none) (fun _ => true)
        "r/%N%/(a+)+".data "r/x/(a+)+".data = some [("N".data, "x".data)] := by
  exact ⟨by decide, by decide⟩

/-- **C4 amended.** For every `r/`-prefixed route that actually reaches
the regex strategy (no `%`, no `{...}` brace pair, not literally equal
to the path): if the remaining pattern is longer than 500 characters,
contains one of the three danger shapes, or fails to compile, then
`validate_regex_pattern` returns false and `route_matches_url` returns
no-match for every regex engine — the engine is never consulted. -/
theorem regex_route_rejected_before_match
    (compiles : Str → Bool) (route url : Str)
    (hr : startsWithRegexPrefix route = true)
    (hnopct : route.contains '%' = false)
    (hnbrace : (route.contains '{' && route.contains '}') = false)
    (hne : route ≠ url)
    (hbad : 500 < (route.drop 2).length
      ∨ hasGroupDanger isQuantChar (route.drop 2) = true
      ∨ hasGroupDanger (fun c => c = '{') (route.drop 2) = true
      ∨ hasBraceDanger (route.drop 2) = true
      ∨ compiles (route.drop 2) = false) :
    validate_regex_pattern compiles (route.drop 2) = false
    ∧ ∀ rmatch : Str → Str → Option (List (Str × Str)),
        route_matches_url rmatch compiles route url = none := by
  have hval : validate_regex_pattern compiles (route.drop 2) = false := by
    by_cases hlen : 500 < (route.drop 2).length
    · unfold validate_regex_pattern
      rw [if_pos hlen]
    · unfold validate_regex_pattern
      rw [if_neg hlen]
      by_cases hd : (hasGroupDanger isQuantChar (route.drop 2)
          || hasGroupDanger (fun c => c = '{') (route.drop 2)
          || hasBraceDanger (route.drop 2)) = true
      · rw [if_pos hd]
      · rw [if_neg hd]
        rcases hbad with h | h | h | h | h
        · exact absurd h hlen
        · exact absurd (by simp [h]) hd
        · exact absurd (by simp [h]) hd
        · exact absurd (by simp [h]) hd
        · exact h
  refine ⟨hval, fun rmatch => ?_⟩
  unfold route_matches_url
  rw [if_neg hne, if_neg (by rw [hnopct]; exact Bool.false_ne_true),
    if_neg (by rw [hnbrace]; exact Bool.false_ne_true), if_pos hr, if_pos hval]

theorem regex_route_rejected_before_match_witness :
    validate_regex_pattern (fun _ => true) ("r/(a+)+b".data.drop 2) = false
    ∧ route_matches_url (fun _ _ => some [("g".data, "v".data)]) (fun _ => true)
        "r/(a+)+b".data "/x".data = none :=
  ⟨(regex_route_rejected_before_match (fun _ => true) "r/(a+)+b".data "/x".data
      (by decide) (by decide) (by decide) (by decide)
      (Or.inr (Or.inl (by decide)))).1,
   (regex_route_rejected_before_match (fun _ => true) "r/(a+)+b".data "/x".data
      (by decide) (by decide) (by decide) (by decide)
      (Or.inr (Or.inl (by decide)))).2 (fun _ _ => some [("g".data, "v".data)])⟩

/-- **C10.** A present-but-falsy method entry (empty or null value) on
the first structurally matching route is treated exactly as an absent
method: the scan continues with the remaining routes, and (second
conjunct) the resolver can never return a falsy entry at all. -/
theorem falsy_method_entry_skipped
    (rmatch : Str → Str → Option (List (Str × Str))) (compiles : Str → Bool)
    (route : Str) (methods : List (Str × Yaml))
    (rest : List (Str × List (Str × Yaml)))
    (method url : Str) (pv : List (Str × Str)) (v : Yaml)
    (hmatch : route_matches_url rmatch compiles route url = some pv)
    (hfind : dictGet methods method = some v)
    (hfalsy : pyTruthy v = false) :
    get_response_data rmatch compiles ((route, methods) :: rest) method url
      = get_response_data rmatch compiles rest method url
    ∧ ∀ (config : List (Str × List (Str × Yaml))) (spec : Yaml)
        (pvars : List (Str × Str)),
        get_response_data rmatch compiles config method url = some (spec, pvars) →
        pyTruthy spec = true := by
  constructor
  · simp [get_response_data, hmatch, hfind, hfalsy]
  · intro config
    induction config with
    | nil => intro spec pvars h; simp [get_response_data] at h
    | cons entry rest2 ih =>
        intro spec pvars h
        obtain ⟨r, ms⟩ := entry
        rw [get_response_data] at h
        rcases hm : route_matches_url rmatch compiles r url with _ | pv2 <;>
          simp only [hm] at h
        · exact ih spec pvars h
        · rcases hf : dictGet ms method with _ | mc <;> simp only [hf] at h
          · exact ih spec pvars h
          · by_cases ht : pyTruthy mc = true
            · simp only [ht, if_true, Option.some.injEq, Prod.mk.injEq] at h
              obtain ⟨rfl, -⟩ := h
              exact ht
            · rw [if_neg ht] at h
              exact ih spec pvars h

theorem falsy_method_entry_skipped_witness :
    route_matches_url (fun _ _ => none) (fun _ => true) "/a".data "/a".data = some []
    ∧ dictGet [("GET".data, Yaml.nullv)] "GET".data = some Yaml.nullv
    ∧ pyTruthy Yaml.nullv = false
    ∧ get_response_data (fun _ _ => none) (fun _ => true)
        [("/a".data, [("GET".data, Yaml.nullv)]),
         ("/a".data, [("GET".data, Yaml.intv 7)])] "GET".data "/a".data
      = get_response_data (fun _ _ => none) (fun _ => true)
        [("/a".data, [("GET".data, Yaml.intv 7)])] "GET".data "/a".data :=
  ⟨by rfl, by rfl, by rfl,
    (falsy_method_entry_skipped (fun _ _ => none) (fun _ => true) "/a".data
      [("GET".data, Yaml.nullv)] [("/a".data, [("GET".data, Yaml.intv 7)])]
      "GET".data "/a".data [] Yaml.nullv (by rfl) (by rfl) (by rfl)).1⟩

/-- **C7.** Enqueueing on a full GELF queue: the call returns (total
function, nothing raises past the handler), the queue is not touched
(nothing blocks), the drop counter increases by exactly one, the first
drop logs the warning, and every 100th cumulative drop logs the
saturation error reporting total drops and current queue occupancy. -/
theorem gelf_drop_accounting (s : GelfState)
    (hcap : s.queueLen = s.queueMax) (hpos : 0 < s.queueMax) :
    (send_to_gelf s).1.drops = s.drops + 1
    ∧ (send_to_gelf s).1.queueLen = s.queueLen
    ∧ (s.drops + 1 = 1 → (send_to_gelf s).2 = .firstDropWarning)
    ∧ ((s.drops + 1) % 100 = 0 →
        (send_to_gelf s).2 = .saturationError (s.drops + 1) s.queueLen s.queueMax) := by
  have hfull : queueFull s.queueMax s.queueLen = true := by
    simp [queueFull, hcap, hpos]
  unfold send_to_gelf
  rw [hfull]
  simp only [if_true]
  by_cases h100 : (s.drops + 1) % 100 = 0
  · refine ⟨by simp [h100], by simp [h100], ?_, by intro _; simp [h100]⟩
    intro h1
    rw [h1] at h100
    omega
  · by_cases h1 : s.drops + 1 = 1
    · exact ⟨by simp [h100, h1], by simp [h100, h1], fun _ => by simp [h100, h1],
        fun hc => absurd hc h100⟩
    · exact ⟨by simp [h100, h1], by simp [h100, h1], fun hc => absurd hc h1,
        fun hc => absurd hc h100⟩

theorem gelf_drop_accounting_witness :
    (send_to_gelf ⟨3, 3, 0⟩).1.drops = 0 + 1
    ∧ (send_to_gelf ⟨3, 3, 0⟩).1.queueLen = 3
    ∧ (0 + 1 = 1 → (send_to_gelf ⟨3, 3, 0⟩).2 = .firstDropWarning)
    ∧ ((0 + 1) % 100 = 0 →
        (send_to_gelf ⟨3, 3, 0⟩).2 = .saturationError (0 + 1) 3 3) :=
  gelf_drop_accounting ⟨3, 3, 0⟩ rfl (by decide)

/-- **C8.** A missing file, unparseable YAML, or a non-mapping document
makes `load_responses` yield no configuration, and then every request —
any method, any path, any resolver/renderer — gets an empty 204
response. -/
theorem missing_config_yields_204
    (resolve : Yaml → Str → Str → Option (Yaml × List (Str × Str)))
    (render : Yaml → List (Str × Str) → Str) (statusOf : Yaml → Nat)
    (file : FileState) (method url : Str)
    (hbad : file = .missing ∨ file = .unparseableYaml
      ∨ ∃ d, file = .parsed d ∧ isMapDoc d = false) :
    load_responses file = none
    ∧ handle_request resolve render statusOf file method url = ⟨204, []⟩ := by
  have hnone : load_responses file = none := by
    rcases hbad with h | h | ⟨d, h, hd⟩
    · subst h; rfl
    · subst h; rfl
    · subst h; simp [load_responses, hd]
  exact ⟨hnone, by simp [handle_request, hnone]⟩

theorem missing_config_yields_204_witness :
    load_responses (.parsed (Yaml.listv [])) = none
    ∧ handle_request (fun _ _ _ => none) (fun _ _ => []) (fun _ => 500)
        (.parsed (Yaml.listv [])) "GET".data "/any/path".data = ⟨204, []⟩ :=
  missing_config_yields_204 (fun _ _ _ => none) (fun _ _ => []) (fun _ => 500)
    (.parsed (Yaml.listv [])) "GET".data "/any/path".data
    (Or.inr (Or.inr ⟨Yaml.listv [], rfl, rfl⟩))

/-- **C3 counterexample.** The claim "the request-identifier header is
present on every response, whatever the request path and client address"
fails: for path `/deadend-status` from client `127.0.0.1`,
`after_request` returns before setting the header, so the response
carries no `X-Request-ID` at all. -/
theorem request_id_header_skipped_on_status_localhost :
    getHeader
      (after_request_set_header
        ⟨"/deadend-status".data, "127.0.0.1".data, "req-id-42".data⟩ [])
      "X-Request-ID".data = none := by decide

/-- **C3 amended.** For every request that is not a `/deadend-status`
probe from `127.0.0.1`, the response carries the `X-Request-ID` header
and its value is byte-for-byte the identifier exposed to templates as
`request.id` (both are `g.request_id`). -/
theorem request_id_header_roundtrip (req : RequestInfo) (hs : List (Str × Str))
    (hnot : ¬ (req.path = "/deadend-status".data ∧ req.remoteAddr = "127.0.0.1".data)) :
    getHeader (after_request_set_header req hs) "X-Request-ID".data
      = some (template_request_id req.requestId) := by
  have hskip : should_skip_logging req.path req.remoteAddr = false := by
    unfold should_skip_logging
    rcases not_and_or.mp hnot with h | h <;> simp [h]
  unfold after_request_set_header
  rw [hskip]
  simp only [Bool.false_eq_true, if_false]
  exact getHeader_setHeader hs "X-Request-ID".data req.requestId

theorem request_id_header_roundtrip_witness :
    getHeader
      (after_request_set_header
        ⟨"/updates/check".data, "10.1.2.3".data, "req-id-7".data⟩
        [("Content-Type".data, "text/plain".data)])
      "X-Request-ID".data = some (template_request_id "req-id-7".data) :=
  request_id_header_roundtrip
    ⟨"/updates/check".data, "10.1.2.3".data, "req-id-7".data⟩
    [("Content-Type".data, "text/plain".data)] (by decide)

/-! ## BoundedCounter lemmas -/

theorem odKeys_append (a b : BCData) : odKeys (a ++ b) = odKeys a ++ odKeys b := by
  simp [odKeys]

theorem odHasKey_eq_mem (d : BCData) (k : Str) :
    odHasKey d k = true ↔ k ∈ odKeys d := by
  unfold odHasKey odKeys
  rw [List.any_eq_true]
  constructor
  · rintro ⟨e, he, hek⟩
    exact List.mem_map.mpr ⟨e, he, beq_iff_eq.mp hek⟩
  · intro hk
    obtain ⟨e, he, hek⟩ := List.mem_map.mp hk
    exact ⟨e, he, beq_iff_eq.mpr hek⟩

theorem odHasKey_eq_false_iff (d : BCData) (k : Str) :
    odHasKey d k = false ↔ k ∉ odKeys d := by
  rw [← odHasKey_eq_mem]
  cases odHasKey d k <;> simp

theorem odHasKey_cons (e : Str × Int) (t : BCData) (k : Str) :
    odHasKey (e :: t) k = ((e.1 == k) || odHasKey t k) := by
  simp [odHasKey]

theorem odKeys_assign_mem (d : BCData) (k : Str) (v : Int)
    (h : odHasKey d k = true) : odKeys (odAssign d k v) = odKeys d := by
  unfold odAssign
  rw [if_pos h]
  unfold odKeys
  rw [List.map_map]
  apply List.map_congr_left
  intro e _
  by_cases hek : e.1 = k
  · simp [Function.comp, hek]
  · simp [Function.comp, hek]

theorem odAssign_not_mem (d : BCData) (k : Str) (v : Int)
    (h : odHasKey d k = false) : odAssign d k v = d ++ [(k, v)] := by
  simp [odAssign, h]

theorem odKeys_filter (d : BCData) (k : Str) :
    odKeys (d.filter (fun e => !(e.1 == k)))
      = (odKeys d).filter (fun x => !(x == k)) := by
  induction d with
  | nil => rfl
  | cons e t ih =>
      by_cases hek : (e.1 == k) = true
      · simp only [odKeys, List.filter_cons, List.map_cons, hek, Bool.not_true] at ih ⊢
        simpa using ih
      · have hek' : (e.1 == k) = false := by simpa using hek
        simp only [odKeys, List.filter_cons, List.map_cons, hek', Bool.not_false] at ih ⊢
        simpa using ih

theorem filter_not_hasKey (d : BCData) (k : Str) :
    odHasKey (d.filter (fun e => !(e.1 == k))) k = false := by
  rw [odHasKey_eq_false_iff, odKeys_filter]
  intro hmem
  have := (List.mem_filter.mp hmem).2
  simp at this

theorem filter_eq_self_of_not_hasKey (d : BCData) (k : Str)
    (h : odHasKey d k = false) : d.filter (fun e => !(e.1 == k)) = d := by
  apply List.filter_eq_self.mpr
  intro e he
  have hne : ¬ (e.1 = k) := by
    intro hek
    rw [odHasKey_eq_false_iff] at h
    exact h (List.mem_map.mpr ⟨e, he, hek⟩)
  simp [hne]

theorem keys_length (d : BCData) : (odKeys d).length = d.length := by
  simp [odKeys]

theorem filter_length_of_hasKey (d : BCData) (k : Str)
    (hnd : (odKeys d).Nodup) (h : odHasKey d k = true) :
    (d.filter (fun e => !(e.1 == k))).length = d.length - 1 := by
  induction d with
  | nil => simp [odHasKey] at h
  | cons e t ih =>
      have hnd' : (e.1 :: odKeys t).Nodup := hnd
      obtain ⟨hhead, hndt⟩ := List.nodup_cons.mp hnd'
      by_cases hek : (e.1 == k) = true
      · have hk : e.1 = k := beq_iff_eq.mp hek
        have hnt : odHasKey t k = false := by
          rw [odHasKey_eq_false_iff, ← hk]
          exact hhead
        rw [List.filter_cons]
        simp [hek, filter_eq_self_of_not_hasKey t k hnt]
      · have hek' : (e.1 == k) = false := by simpa using hek
        have hkt : odHasKey t k = true := by
          rw [odHasKey_cons, hek', Bool.false_or] at h
          exact h
        have htpos : 1 ≤ t.length := by
          rw [odHasKey_eq_mem] at hkt
          have hne : odKeys t ≠ [] := List.ne_nil_of_mem hkt
          have := List.length_pos.mpr hne
          rw [keys_length] at this
          omega
        rw [List.filter_cons]
        simp only [hek', Bool.not_false, if_true, List.length_cons, ih hndt hkt]
        omega

theorem odGet_isSome_of_hasKey (d : BCData) (k : Str)
    (h : odHasKey d k = true) : ∃ cur, odGet d k = some cur := by
  unfold odHasKey at h
  obtain ⟨e, he, hek⟩ := List.any_eq_true.mp h
  have hsome : (d.find? (fun e => e.1 == k)).isSome :=
    List.find?_isSome.mpr ⟨e, he, hek⟩
  obtain ⟨e', he'⟩ := Option.isSome_iff_exists.mp hsome
  exact ⟨e'.2, by unfold odGet; rw [he']; rfl⟩

theorem odMoveToEnd_of_hasKey (d : BCData) (k : Str)
    (h : odHasKey d k = true) :
    ∃ cur, odGet d k = some cur
      ∧ odMoveToEnd d k = d.filter (fun e => !(e.1 == k)) ++ [(k, cur)] := by
  obtain ⟨cur, hcur⟩ := odGet_isSome_of_hasKey d k h
  exact ⟨cur, hcur, by unfold odMoveToEnd; rw [hcur]⟩

theorem odHasKey_append_right (l : BCData) (k : Str) (v : Int) :
    odHasKey (l ++ [(k, v)]) k = true := by
  simp [odHasKey]

theorem odAssign_append_last (l : BCData) (k : Str) (cur w : Int)
    (hl : odHasKey l k = false) :
    odAssign (l ++ [(k, cur)]) k w = l ++ [(k, w)] := by
  unfold odAssign
  rw [if_pos (odHasKey_append_right l k cur), List.map_append]
  congr 1
  · conv_rhs => rw [← List.map_id l]
    apply List.map_congr_left
    intro e he
    have hne : (e.1 == k) = false := by
      rw [odHasKey_eq_false_iff] at hl
      have : e.1 ≠ k := fun hh => hl (List.mem_map.mpr ⟨e, he, hh⟩)
      simp [this]
    simp [hne]
  · simp

theorem bcSetItem_of_hasKey (maxsize : Nat) (d : BCData) (k : Str) (w : Int)
    (hk : odHasKey d k = true) :
    bcSetItem maxsize d k w
      = some (d.filter (fun e => !(e.1 == k)) ++ [(k, w)]) := by
  obtain ⟨cur, _, hmv⟩ := odMoveToEnd_of_hasKey d k hk
  unfold bcSetItem
  rw [if_pos hk, hmv, odAssign_append_last _ _ _ _ (filter_not_hasKey d k)]

theorem bcSetItem_of_new_at_capacity (maxsize : Nat) (d : BCData) (k : Str)
    (w : Int) (hk : odHasKey d k = false) (hfull : maxsize ≤ d.length)
    (hne : d ≠ []) :
    bcSetItem maxsize d k w = some (d.tail ++ [(k, w)]) := by
  unfold bcSetItem
  rw [if_neg (by simp [hk]), if_pos hfull]
  cases d with
  | nil => exact absurd rfl hne
  | cons e t =>
      have hkt : odHasKey t k = false := by
        rw [odHasKey_cons] at hk
        exact (Bool.or_eq_false_iff.mp hk).2
      simp [odPopFirst, odAssign_not_mem t k w hkt]

theorem bcSetItem_of_new_below (maxsize : Nat) (d : BCData) (k : Str) (w : Int)
    (hk : odHasKey d k = false) (hroom : d.length < maxsize) :
    bcSetItem maxsize d k w = some (d ++ [(k, w)]) := by
  unfold bcSetItem
  rw [if_neg (by simp [hk]), if_neg (by omega), odAssign_not_mem d k w hk]

theorem bcIncrement_eq_bcSetItem (maxsize : Nat) (d : BCData) (k : Str) (a : Int) :
    bcIncrement maxsize d k a = bcSetItem maxsize d k ((odGet d k).getD 0 + a) := rfl

theorem keys_nodup_filter_append (d : BCData) (k : Str) (cur : Int)
    (hnd : (odKeys d).Nodup) :
    (odKeys (d.filter (fun e => !(e.1 == k)) ++ [(k, cur)])).Nodup := by
  rw [odKeys_append, odKeys_filter]
  apply List.Nodup.append
  · exact hnd.filter _
  · simp [odKeys]
  · intro x hx hx2
    have hxk : x = k := by simpa [odKeys] using hx2
    subst hxk
    have := (List.mem_filter.mp hx).2
    simp at this

theorem bcSetItem_wf (maxsize : Nat) (d : BCData) (k : Str) (v : Int)
    (d' : BCData) (hwf : bcWF maxsize d)
    (h : bcSetItem maxsize d k v = some d') : bcWF maxsize d' := by
  obtain ⟨hnd, hlen⟩ := hwf
  by_cases hk : odHasKey d k = true
  · rw [bcSetItem_of_hasKey maxsize d k v hk] at h
    obtain rfl := Option.some.inj h
    refine ⟨keys_nodup_filter_append d k v hnd, ?_⟩
    have hfl := filter_length_of_hasKey d k hnd hk
    have hpos : 1 ≤ d.length := by
      rw [odHasKey_eq_mem] at hk
      have hne : odKeys d ≠ [] := List.ne_nil_of_mem hk
      have := List.length_pos.mpr hne
      rw [keys_length] at this
      omega
    rw [List.length_append, hfl]
    simp
    omega
  · have hk' : odHasKey d k = false := by simpa using hk
    by_cases hfull : maxsize ≤ d.length
    · have hne : d ≠ [] := by
        intro hnil
        subst hnil
        unfold bcSetItem at h
        rw [if_neg (by simp [hk']), if_pos hfull] at h
        simp [odPopFirst] at h
      rw [bcSetItem_of_new_at_capacity maxsize d k v hk' hfull hne] at h
      obtain rfl := Option.some.inj h
      cases d with
      | nil => exact absurd rfl hne
      | cons e t =>
          have hndt : (odKeys t).Nodup := (List.nodup_cons.mp hnd).2
          have hkt : odHasKey t k = false := by
            rw [odHasKey_cons] at hk'
            exact (Bool.or_eq_false_iff.mp hk').2
          constructor
          · rw [List.tail_cons, odKeys_append]
            refine List.Nodup.append hndt (by simp [odKeys]) ?_
            intro x hx hx2
            have hxk : x = k := by simpa [odKeys] using hx2
            subst hxk
            rw [odHasKey_eq_false_iff] at hkt
            exact hkt hx
          · rw [List.tail_cons, List.length_append]
            simp at hlen ⊢
            omega
    · push_neg at hfull
      rw [bcSetItem_of_new_below maxsize d k v hk' hfull] at h
      obtain rfl := Option.some.inj h
      constructor
      · rw [odKeys_append]
        refine List.Nodup.append hnd (by simp [odKeys]) ?_
        intro x hx hx2
        have hxk : x = k := by simpa [odKeys] using hx2
        subst hxk
        rw [odHasKey_eq_false_iff] at hk'
        exact hk' hx
      · rw [List.length_append]
        simp
        omega

theorem bcStep_wf (maxsize : Nat) (d : BCData) (op : BCOp) (d' : BCData)
    (hwf : bcWF maxsize d) (h : bcStep maxsize d op = some d') :
    bcWF maxsize d' := by
  cases op with
  | setItem k v => exact bcSetItem_wf maxsize d k v d' hwf h
  | increment k a =>
      rw [bcStep, bcIncrement_eq_bcSetItem] at h
      exact bcSetItem_wf maxsize d k _ d' hwf h

theorem bcRun_wf (maxsize : Nat) (ops : List BCOp) :
    ∀ d : BCData, bcWF maxsize d →
    ∀ d' : BCData, bcRun maxsize ops d = some d' → bcWF maxsize d' := by
  induction ops with
  | nil =>
      intro d hwf d' h
      rw [bcRun] at h
      obtain rfl := Option.some.inj h
      exact hwf
  | cons op rest ih =>
      intro d hwf d' h
      rw [bcRun] at h
      rcases hstep : bcStep maxsize d op with _ | d1 <;> rw [hstep] at h
      · simp at h
      · exact ih d1 (bcStep_wf maxsize d op d1 hwf hstep) d' h

/-- **C5 counterexample.** At capacity 1, touching the only key via
`increment` does not protect it from the eviction caused by the next
new-key insert: after `d["a"]=1; d.increment("a"); d["b"]=1` on a
`BoundedCounter(maxsize=1)`, key `"a"` is gone even though it was the
most recently touched key before the insert. -/
theorem lru_touch_unprotected_at_capacity_one :
    (bcRun 1 [.setItem "a".data 1, .increment "a".data 1, .setItem "b".data 1]
        []).map odKeys = some ["b".data]
    ∧ "a".data ∉ ["b".data] := by
  exact ⟨by decide, by decide⟩

/-- **C5 amended.** For every sequence of `__setitem__`/`increment`
operations from the empty counter, the number of stored keys never
exceeds `maxsize`; inserting a new key at capacity evicts exactly the
least-recently-touched (oldest) key; and touching an existing key via
`increment` marks it most-recently-used, which protects it from the
eviction caused by the next new-key insert at capacity whenever the
capacity is at least 2 (at capacity 1 the touched key is itself the
least-recently-used one and is evicted). -/
theorem bounded_counter_lru_invariants :
    (∀ (maxsize : Nat) (ops : List BCOp) (d : BCData),
      bcRun maxsize ops [] = some d → d.length ≤ maxsize)
    ∧ (∀ (maxsize : Nat) (d : BCData) (k : Str) (v : Int),
        bcWF maxsize d → d.length = maxsize → 0 < maxsize →
        odHasKey d k = false →
        (bcSetItem maxsize d k v).map odKeys = some ((odKeys d).tail ++ [k]))
    ∧ (∀ (maxsize : Nat) (d : BCData) (k knew : Str) (a v : Int),
        bcWF maxsize d → d.length = maxsize → 2 ≤ maxsize →
        odHasKey d k = true → odHasKey d knew = false →
        ∃ d1 d2, bcIncrement maxsize d k a = some d1
          ∧ bcSetItem maxsize d1 knew v = some d2 ∧ k ∈ odKeys d2) := by
  refine ⟨?_, ?_, ?_⟩
  · intro maxsize ops d h
    exact (bcRun_wf maxsize ops [] ⟨List.nodup_nil, by simp⟩ d h).2
  · intro maxsize d k v hwf hcap hpos hk
    have hne : d ≠ [] := by
      intro hnil
      subst hnil
      simp at hcap
      omega
    rw [bcSetItem_of_new_at_capacity maxsize d k v hk (le_of_eq hcap.symm) hne]
    cases d with
    | nil => exact absurd rfl hne
    | cons e t => simp [odKeys_append, odKeys]
  · intro maxsize d k knew a v hwf hcap hcap2 hk hknew
    obtain ⟨hnd, _⟩ := hwf
    have hkne : k ≠ knew := by
      intro hh
      rw [hh, hknew] at hk
      exact Bool.false_ne_true hk
    have hinc : bcIncrement maxsize d k a
        = some (d.filter (fun e => !(e.1 == k)) ++ [(k, (odGet d k).getD 0 + a)]) := by
      rw [bcIncrement_eq_bcSetItem]
      exact bcSetItem_of_hasKey _ _ _ _ hk
    have hlenf : (d.filter (fun e => !(e.1 == k))).length = d.length - 1 :=
      filter_length_of_hasKey d k hnd hk
    have hd1len : (d.filter (fun e => !(e.1 == k)) ++ [(k, (odGet d k).getD 0 + a)]).length
        = maxsize := by
      rw [List.length_append, hlenf]
      simp
      omega
    have hknew1 : odHasKey (d.filter (fun e => !(e.1 == k))
        ++ [(k, (odGet d k).getD 0 + a)]) knew = false := by
      rw [odHasKey_eq_false_iff, odKeys_append, odKeys_filter]
      intro hmem
      rcases List.mem_append.mp hmem with hmem | hmem
      · have hsub := List.mem_of_mem_filter hmem
        rw [odHasKey_eq_false_iff] at hknew
        exact hknew hsub
      · have : knew = k := by simpa [odKeys] using hmem
        exact hkne this.symm
    have hfne : d.filter (fun e => !(e.1 == k)) ≠ [] := by
      intro hnil
      rw [hnil] at hlenf
      simp at hlenf
      omega
    obtain ⟨f0, frest, hfc⟩ := List.exists_cons_of_ne_nil hfne
    refine ⟨_, _, hinc,
      bcSetItem_of_new_at_capacity maxsize _ knew v hknew1 (le_of_eq hd1len.symm)
        (by simp), ?_⟩
    rw [hfc, List.cons_append, List.tail_cons, odKeys_append, odKeys_append]
    simp [odKeys]

theorem bounded_counter_lru_invariants_witness :
    ([("a".data, (5 : Int))].length ≤ 1)
    ∧ ((bcSetItem 2 [("x".data, (1 : Int)), ("y".data, 2)] "z".data 3).map odKeys
        = some ((odKeys [("x".data, (1 : Int)), ("y".data, 2)]).tail ++ ["z".data]))
    ∧ (∃ d1 d2, bcIncrement 2 [("x".data, (1 : Int)), ("y".data, 2)] "x".data 1 = some d1
        ∧ bcSetItem 2 d1 "z".data 3 = some d2 ∧ "x".data ∈ odKeys d2) :=
  ⟨bounded_counter_lru_invariants.1 1 [.setItem "a".data 5] [("a".data, 5)] (by rfl),
   bounded_counter_lru_invariants.2.1 2 [("x".data, 1), ("y".data, 2)] "z".data 3
     ⟨by decide, by decide⟩ (by decide) (by decide) (by decide),
   bounded_counter_lru_invariants.2.2 2 [("x".data, 1), ("y".data, 2)] "x".data
     "z".data 1 3 ⟨by decide, by decide⟩ (by decide) (by decide) (by decide)
     (by decide)⟩

/-! ## Unique-IP tracking lemmas -/

theorem ip_tail_nodup {l : List Str} (h : l.Nodup) : l.tail.Nodup := by
  cases l with
  | nil => exact h
  | cons e t => exact (List.nodup_cons.mp h).2

theorem ipStep_wf (cap : Nat) (s : IPTrack) (ip : Str) (hwf : ipWF cap s) :
    ipWF cap (track_unique_ip cap s ip) := by
  obtain ⟨hset, hnd, hlen⟩ := hwf
  unfold track_unique_ip
  by_cases hmem : ip ∈ s.uniqueIpsSet
  · rw [if_pos hmem]
    exact ⟨hset, hnd, hlen⟩
  · rw [if_neg hmem]
    have hfresh : ip ∉ s.uniqueIps := by
      rw [hset] at hmem
      intro h
      exact hmem (List.mem_toFinset.mpr h)
    have hcard : (insert ip s.uniqueIpsSet).card = s.uniqueIps.length + 1 := by
      rw [Finset.card_insert_of_not_mem hmem, hset,
        List.toFinset_card_of_nodup hnd]
    by_cases hcap0 : cap = 0
    · subst hcap0
      have huq : s.uniqueIps = [] := List.eq_nil_of_length_eq_zero (by omega)
      have hdq : dequeAppend 0 s.uniqueIps ip = [] := by
        simp [dequeAppend, huq]
      rw [hdq]
      have hcond : ([] : List Str).length < (insert ip s.uniqueIpsSet).card := by
        rw [hcard]
        simp
      rw [if_pos hcond]
      exact ⟨by simp, List.nodup_nil, by simp⟩
    · by_cases hfull : cap ≤ s.uniqueIps.length
      · have hlency : s.uniqueIps.length = cap := le_antisymm hlen hfull
        have hdq : dequeAppend cap s.uniqueIps ip = s.uniqueIps.tail ++ [ip] := by
          simp [dequeAppend, hcap0, hfull]
        rw [hdq]
        have hdqlen : (s.uniqueIps.tail ++ [ip]).length = cap := by
          rw [List.length_append, List.length_tail]
          simp only [List.length_singleton]
          omega
        have hcond : (s.uniqueIps.tail ++ [ip]).length
            < (insert ip s.uniqueIpsSet).card := by
          rw [hdqlen, hcard, hlency]
          omega
        rw [if_pos hcond]
        refine ⟨rfl, ?_, by rw [hdqlen]⟩
        refine List.Nodup.append (ip_tail_nodup hnd) (List.nodup_singleton ip) ?_
        intro x hx hx2
        have : x = ip := by simpa using hx2
        subst this
        exact hfresh (List.tail_subset _ hx)
      · push_neg at hfull
        have hdq : dequeAppend cap s.uniqueIps ip = s.uniqueIps ++ [ip] := by
          simp [dequeAppend, hcap0]
          omega
        rw [hdq]
        have hcond : ¬ ((s.uniqueIps ++ [ip]).length
            < (insert ip s.uniqueIpsSet).card) := by
          rw [List.length_append, hcard]
          simp
        rw [if_neg hcond]
        refine ⟨?_, ?_, ?_⟩
        · rw [hset, List.toFinset_append]
          ext a
          simp [or_comm]
        · refine List.Nodup.append hnd (List.nodup_singleton ip) ?_
          intro x hx hx2
          have : x = ip := by simpa using hx2
          subst this
          exact hfresh hx
        · rw [List.length_append]
          simp
          omega

theorem ip_run_wf (cap : Nat) (ips : List Str) :
    ∀ s : IPTrack, ipWF cap s → ipWF cap (track_run cap ips s) := by
  induction ips with
  | nil => intro s hwf; exact hwf
  | cons ip rest ih =>
      intro s hwf
      rw [track_run]
      exact ih _ (ipStep_wf cap s ip hwf)

theorem track_run_append (cap : Nat) (l1 l2 : List Str) :
    ∀ s : IPTrack, track_run cap (l1 ++ l2) s = track_run cap l2 (track_run cap l1 s) := by
  induction l1 with
  | nil => intro s; rfl
  | cons ip rest ih =>
      intro s
      rw [List.cons_append, track_run, track_run, ih]

theorem ipStep_deque (cap : Nat) (s : IPTrack) (ip : Str) (hwf : ipWF cap s)
    (hfresh : ip ∉ s.uniqueIpsSet) :
    (track_unique_ip cap s ip).uniqueIps = lastN cap (s.uniqueIps ++ [ip]) := by
  obtain ⟨hset, hnd, hlen⟩ := hwf
  have huq : (track_unique_ip cap s ip).uniqueIps = dequeAppend cap s.uniqueIps ip := by
    unfold track_unique_ip
    rw [if_neg hfresh]
    split <;> rfl
  rw [huq]
  unfold dequeAppend lastN
  by_cases hcap0 : cap = 0
  · subst hcap0
    have huq0 : s.uniqueIps = [] := List.eq_nil_of_length_eq_zero (by omega)
    simp [huq0]
  · rw [if_neg hcap0]
    by_cases hfull : cap ≤ s.uniqueIps.length
    · have hlency : s.uniqueIps.length = cap := le_antisymm hlen hfull
      rw [if_pos hfull, List.length_append]
      have h1 : s.uniqueIps.length + [ip].length - cap = 1 := by
        simp
        omega
      rw [h1, List.drop_append_of_le_length (by omega), List.drop_one]
    · push_neg at hfull
      rw [if_neg (by omega), List.length_append]
      have h0 : s.uniqueIps.length + [ip].length - cap = 0 := by
        simp
        omega
      rw [h0, List.drop_zero]

theorem lastN_append_one (n : Nat) (xs : List Str) (x : Str) :
    lastN n (lastN n xs ++ [x]) = lastN n (xs ++ [x]) := by
  unfold lastN
  by_cases hn : xs.length ≤ n
  · rw [Nat.sub_eq_zero_of_le hn, List.drop_zero]
  · push_neg at hn
    have hlen1 : (xs.drop (xs.length - n)).length = n := by
      rw [List.length_drop]
      omega
    by_cases hn0 : n = 0
    · subst hn0
      simp
    · rw [List.length_append, List.length_append, hlen1]
      have h1 : n + [x].length - n = 1 := by simp
      have h2 : xs.length + [x].length - n = xs.length - n + 1 := by
        simp
        omega
      rw [h1, h2, List.drop_append_of_le_length (by omega),
        List.drop_append_of_le_length (by omega), List.drop_one,
        ← List.drop_one, List.drop_drop]

theorem track_run_deque (cap : Nat) :
    ∀ ips : List Str, ips.Nodup →
      (track_run cap ips ⟨[], ∅⟩).uniqueIps = lastN cap ips := by
  intro ips
  induction ips using List.reverseRecOn with
  | nil =>
      intro _
      simp [track_run, lastN]
  | append_singleton ips0 x ih =>
      intro hnd
      obtain ⟨hnd0, _, hdisj⟩ := List.nodup_append.mp hnd
      have hxnotin : x ∉ ips0 := fun hx => hdisj hx (by simp)
      have hwf0 : ipWF cap (track_run cap ips0 ⟨[], ∅⟩) :=
        ip_run_wf cap ips0 ⟨[], ∅⟩ ⟨by simp, List.nodup_nil, by simp⟩
      have hdq0 := ih hnd0
      have hfresh : x ∉ (track_run cap ips0 ⟨[], ∅⟩).uniqueIpsSet := by
        rw [hwf0.1]
        intro hx
        have hx2 := List.mem_toFinset.mp hx
        rw [hdq0] at hx2
        exact hxnotin (List.drop_subset _ _ hx2)
      rw [track_run_append cap ips0 [x]]
      have hone : track_run cap [x] (track_run cap ips0 ⟨[], ∅⟩)
          = track_unique_ip cap (track_run cap ips0 ⟨[], ∅⟩) x := rfl
      rw [hone, ipStep_deque cap _ x hwf0 hfresh, hdq0, lastN_append_one]

/-- **C6.** The FIFO-bounded unique-IP structure: after every sequence
of arrivals from the empty state, the membership set is exactly the
deque's membership and their sizes are equal (so the set's size never
exceeds the deque's); and adding more than `capacity` pairwise-distinct
IPs retains exactly the most recent `capacity` of them in both
structures. -/
theorem fifo_ip_set_sync_and_retention :
    (∀ (cap : Nat) (ips : List Str),
      (track_run cap ips ⟨[], ∅⟩).uniqueIpsSet
          = (track_run cap ips ⟨[], ∅⟩).uniqueIps.toFinset
      ∧ (track_run cap ips ⟨[], ∅⟩).uniqueIpsSet.card
          = (track_run cap ips ⟨[], ∅⟩).uniqueIps.length
      ∧ (track_run cap ips ⟨[], ∅⟩).uniqueIps.length ≤ cap)
    ∧ (∀ (cap : Nat) (ips : List Str), ips.Nodup → cap < ips.length →
      (track_run cap ips ⟨[], ∅⟩).uniqueIps = ips.drop (ips.length - cap)
      ∧ (track_run cap ips ⟨[], ∅⟩).uniqueIpsSet
          = (ips.drop (ips.length - cap)).toFinset) := by
  constructor
  · intro cap ips
    have hwf : ipWF cap (track_run cap ips ⟨[], ∅⟩) :=
      ip_run_wf cap ips ⟨[], ∅⟩ ⟨by simp, List.nodup_nil, by simp⟩
    obtain ⟨hset, hnd, hlen⟩ := hwf
    exact ⟨hset, by rw [hset, List.toFinset_card_of_nodup hnd], hlen⟩
  · intro cap ips hnd hmore
    have hwf : ipWF cap (track_run cap ips ⟨[], ∅⟩) :=
      ip_run_wf cap ips ⟨[], ∅⟩ ⟨by simp, List.nodup_nil, by simp⟩
    have hdq := track_run_deque cap ips hnd
    exact ⟨hdq, by rw [hwf.1, hdq]; rfl⟩

theorem fifo_ip_set_sync_and_retention_witness :
    ((track_run 2 ["a".data, "b".data, "c".data] ⟨[], ∅⟩).uniqueIpsSet
        = (track_run 2 ["a".data, "b".data, "c".data] ⟨[], ∅⟩).uniqueIps.toFinset
      ∧ (track_run 2 ["a".data, "b".data, "c".data] ⟨[], ∅⟩).uniqueIpsSet.card
        = (track_run 2 ["a".data, "b".data, "c".data] ⟨[], ∅⟩).uniqueIps.length
      ∧ (track_run 2 ["a".data, "b".data, "c".data] ⟨[], ∅⟩).uniqueIps.length ≤ 2)
    ∧ ((track_run 2 ["a".data, "b".data, "c".data] ⟨[], ∅⟩).uniqueIps
        = (["a".data, "b".data, "c".data] : List Str).drop (3 - 2)
      ∧ (track_run 2 ["a".data, "b".data, "c".data] ⟨[], ∅⟩).uniqueIpsSet
        = ((["a".data, "b".data, "c".data] : List Str).drop (3 - 2)).toFinset) :=
  ⟨fifo_ip_set_sync_and_retention.1 2 ["a".data, "b".data, "c".data],
   fifo_ip_set_sync_and_retention.2 2 ["a".data, "b".data, "c".data]
     (by decide) (by decide)⟩

end WebDeadend
